import Mathlib

/-!
Verification of the ChatGPTana conversion pipeline (`ChatGPTana_Streamlit.py`).

The pipeline converts a ChatGPT JSON export into "Tana Paste" outline text,
splits that text into budget-bounded chunks, and re-packs the chunks into
final files with a best-fit-decreasing bin packing.

Python strings are modelled as `List Char` (one entry per code point, as in
Python).  Python line splitting (`str.splitlines`) is modelled for the `'\n'`
separator, the only line break the pipeline itself produces; `str.strip` is
modelled over ASCII whitespace.  Integer arithmetic on lengths uses `Nat`;
every subtraction in the source is either guarded so that it cannot go
negative, or a negative Python value and the truncated `Nat` value drive the
same branch (noted at each definition).
-/

namespace ChatGPTana

/-- Characters strings: Python `str` as a list of code points. -/
abbrev Str := List Char

/-- Whitespace test used to model Python `str.strip()` (ASCII whitespace). -/
def isWs (c : Char) : Bool :=
  c = ' ' || c = '\t' || c = '\n' || c = '\r' || c = '\x0b' || c = '\x0c'

/-- Drop leading whitespace, as in Python `str.lstrip()`. -/
def dropLead (s : Str) : Str := s.dropWhile isWs

/-- Drop trailing whitespace, as in Python `str.rstrip()`. -/
def dropTrail (s : Str) : Str := (s.reverse.dropWhile isWs).reverse

/-- Python `str.strip()`: drop whitespace at both ends. -/
def pyStrip (s : Str) : Str := dropTrail (dropLead s)

/-- Python `"\n".join(xs)`. -/
def joinNL : List Str → Str
  | [] => []
  | [l] => l
  | l :: l' :: ls => l ++ '\n' :: joinNL (l' :: ls)

/-- Python `"\n\n".join(xs)`. -/
def joinNN : List Str → Str
  | [] => []
  | [l] => l
  | l :: l' :: ls => l ++ '\n' :: '\n' :: joinNN (l' :: ls)

/-- Python `" ".join(xs)`. -/
def joinSp : List Str → Str
  | [] => []
  | [l] => l
  | l :: l' :: ls => l ++ ' ' :: joinSp (l' :: ls)

/-- Python `str.splitlines()` for `'\n'`-separated text: every `'\n'` ends a
line and a trailing `'\n'` does not open a final empty line
(`"".splitlines() = []`, `"a\n".splitlines() = ["a"]`). -/
def pySplitlines : Str → List Str
  | [] => []
  | c :: rest =>
    if c = '\n' then [] :: pySplitlines rest
    else
      match pySplitlines rest with
      | [] => [[c]]
      | l :: ls => (c :: l) :: ls

/-- Source `force_split_large_qna_block`, the loop over the block's lines:
arguments are the remaining lines, the current sub-block and its running
length (`current_length`, the sum of `len(line) + 1` over the current
sub-block). -/
def force_split_loop (available : Nat) : List Str → List Str → Nat → List Str
  | [], cur, _ => if cur ≠ [] then [joinNL cur] else []
  | line :: rest, cur, clen =>
    let ll := line.length + 1
    if available < clen + ll ∧ cur ≠ [] then
      joinNL cur :: force_split_loop available rest [line] ll
    else
      force_split_loop available rest (cur ++ [line]) (clen + ll)

/-- Source `force_split_large_qna_block(qa_block, available)`: split a
Q-A block into sub-blocks at line boundaries so that each fits in
`available` characters (when possible). -/
def force_split_large_qna_block (qa_block : Str) (available : Nat) : List Str :=
  force_split_loop available (pySplitlines qa_block) [] 0

/-! Data model of the export and the message extractor. -/

/-- Output header marker `"%%tana%%"`. -/
def tana_marker : Str := "%%tana%%".toList

/-- Scan of `remove_extra_tana_tags`, structurally recursive on a fuel
argument so that it evaluates by reduction; every step consumes at least one
character and one unit of fuel, so fuel `s.length` is never exhausted. -/
def remove_tana_aux : Nat → Str → Str
  | _, [] => []
  | 0, s => s
  | fuel + 1, c :: rest =>
    if tana_marker.isPrefixOf (c :: rest) then
      remove_tana_aux fuel ((c :: rest).drop tana_marker.length)
    else c :: remove_tana_aux fuel rest

/-- Source `remove_extra_tana_tags`: Python `text.replace("%%tana%%", "")`,
removing non-overlapping occurrences left to right. -/
def remove_extra_tana_tags (s : Str) : Str := remove_tana_aux s.length s

/-- One entry of a message's `content.parts`: either a plain string, or a
structured payload (a dict) carrying an optional `"text"` field together
with its Python `str()` rendering, used when the field is absent. -/
inductive Part where
  | plain : Str → Part
  | payload : Option Str → Str → Part
deriving DecidableEq

/-- Text contributed by one part: a dict part uses `part.get("text", str(part))`,
any other part is stringified (a string stringifies to itself). -/
def partText : Part → Str
  | .plain s => s
  | .payload (some t) _ => t
  | .payload none r => r

/-- One message: author role, content parts, optional creation timestamp
(epoch seconds, modelled as an integer). -/
structure Message where
  role : Str
  parts : List Part
  create_time : Option Int
deriving DecidableEq

/-- Source `extract_text`: join the parts' texts with single spaces, strip
`"%%tana%%"` markers, trim whitespace. -/
def extract_text (m : Message) : Str :=
  pyStrip (remove_extra_tana_tags (joinSp (m.parts.map partText)))

/-- Source `format_multiline_as_nodes(text, indent_level)`: each non-blank
line becomes its own bullet `" "*indent + "- " + line.strip()`, joined by
newlines; empty input yields the empty string. -/
def format_multiline_as_nodes (text : Str) (indent_level : Nat) : Str :=
  if text = [] then []
  else
    joinNL ((pySplitlines text).filterMap (fun l =>
      if pyStrip l = [] then none
      else some (List.replicate indent_level ' ' ++ '-' :: ' ' :: pyStrip l)))

/-! The Q-A consolidator (source `json_to_tana_paste_merged_fast` /
`finalize_qa`).  The per-conversation state is carried explicitly; the
timestamp formatter `convert_timestamp` (a `strftime` rendering that depends
on the local timezone) is abstracted as a parameter `fmt`, and the length of
the conversation header (`len("\n".join(conv_header)) + 2` in the source) as
a parameter `header_len`. -/

/-- Source line 150: `user_text.startswith(("“", '"')) and
user_text.endswith(("”", '"'))` — the start and end quotes are tested
independently against straight and curly variants. -/
def classifyQuoted (t : Str) : Bool :=
  (['“'].isPrefixOf t || ['"'].isPrefixOf t) &&
  (['”'].isSuffixOf t || ['"'].isSuffixOf t)

/-- Chat type assigned to a question text: `"voice"` when the quote test
holds, else `"text"` (source lines 150-153). -/
def chat_type_of (t : Str) : Str :=
  if classifyQuoted t then "voice".toList else "text".toList

/-- Question text as rendered: when the quote test holds, the first and last
characters are removed and the rest trimmed (`user_text[1:-1].strip()`). -/
def question_text_of (t : Str) : Str :=
  if classifyQuoted t then pyStrip ((t.drop 1).dropLast) else t

/-- Hard budget: maximum characters per output file (source `MAX_FILE_SIZE`). -/
def MAX_FILE_SIZE : Nat := 100000

/-- The Q-A block rendered by `finalize_qa` (source lines 149-170) for a
pending question `q` and the already-merged answer text. -/
def qa_block_of (fmt : Int → Str) (q : Message) (merged_answer : Str) : Str :=
  let user_text := extract_text q
  let q_time_str : Str :=
    match q.create_time with
    | some t => if t ≠ 0 then fmt t else []
    | none => []
  let time_line : List Str :=
    if q_time_str ≠ [] then
      if chat_type_of user_text = "voice".toList then
        ["      - audio_length:: ".toList ++ q_time_str]
      else
        ["      - question_time:: ".toList ++ q_time_str]
    else []
  joinNL (["    - #chatgptquestion".toList,
           "      - question::".toList,
           format_multiline_as_nodes (question_text_of user_text) 8] ++
          time_line ++
          ["      - chat_type:: ".toList ++ chat_type_of user_text,
           "      - answer::".toList,
           format_multiline_as_nodes merged_answer 8])

/-- Consolidator state: the pending user question, the accumulated answer
buffer, and the output lines appended so far (`out_lines` entries). -/
structure ConsState where
  pending : Option Message
  buffer : List Str
  out : List Str
deriving DecidableEq

/-- Source `finalize_qa`: when a question is pending and the answer buffer is
non-empty, render the Q-A block (force-splitting it when it cannot fit in a
file together with the conversation header) and reset the state; otherwise do
nothing.  `pending_user and assistant_buffer` is modelled by
`isSome`/non-emptiness: a pending message always has non-empty extracted
text, hence is a non-empty, truthy dict. -/
def finalize_qa (fmt : Int → Str) (header_len : Nat) (s : ConsState) : ConsState :=
  match s.pending with
  | none => s
  | some q =>
    if s.buffer = [] then s
    else
      let merged_answer := pyStrip (joinNL s.buffer)
      let qa_block := qa_block_of fmt q merged_answer
      let out' :=
        if MAX_FILE_SIZE < qa_block.length + header_len then
          let available := MAX_FILE_SIZE - header_len - 2
          s.out ++
            (List.map (fun sb => [sb, ([] : Str)])
              (force_split_large_qna_block qa_block available)).flatten
        else s.out ++ [qa_block, []]
      { pending := none, buffer := [], out := out' }

/-- One step of the consolidator loop (source lines 186-205): messages with
empty extracted text are skipped; a user message finalizes any complete Q-A
pair and becomes the pending question; assistant/tool text is buffered when a
question is pending and otherwise emitted as a standalone `ChatGPT::` block;
other roles are ignored. -/
def process_message (fmt : Int → Str) (header_len : Nat)
    (s : ConsState) (m : Message) : ConsState :=
  let text := extract_text m
  if text = [] then s
  else if m.role = "user".toList then
    let s' := finalize_qa fmt header_len s
    { s' with pending := some m, buffer := [] }
  else if m.role = "assistant".toList ∨ m.role = "tool".toList then
    if s.pending.isSome then { s with buffer := s.buffer ++ [text] }
    else { s with out := s.out ++ ["    - ChatGPT::".toList,
                                   format_multiline_as_nodes text 8] }
  else s

/-- The consolidator over one conversation's ordered messages: fold the step
function from the empty state, then apply the trailing `finalize_qa()`
(source line 206).  `out` collects exactly the lines this conversation's Q-A
processing appends to `out_lines`. -/
def consolidate (fmt : Int → Str) (header_len : Nat) (msgs : List Message) : ConsState :=
  finalize_qa fmt header_len
    (msgs.foldl (process_message fmt header_len) ⟨none, [], []⟩)

/-! The conversation reader (source lines 135-141): gather the mapping's
messages in enumeration order and sort them by creation timestamp. -/

/-- Sort key `m.get("create_time") or 0`: a missing timestamp (and the
timestamp `0` itself) is treated as `0`. -/
def sort_key (m : Message) : Int := m.create_time.getD 0

/-- Boolean comparison used by the stable sort. -/
def msgLe (a b : Message) : Bool := sort_key a ≤ sort_key b

/-- Messages of a conversation's node mapping in enumeration order: each node
optionally holds a message, nodes without one are skipped. -/
def gather_messages (mapping : List (Option Message)) : List Message :=
  mapping.filterMap id

/-- The message sequence fed to the consolidator:
`messages.sort(key=lambda m: m.get("create_time") or 0)` — a stable
ascending sort (Python's Timsort; modelled by the stable `mergeSort`, which
yields the same list). -/
def conversation_messages (mapping : List (Option Message)) : List Message :=
  (gather_messages mapping).mergeSort msgLe

/-- Stated from the claim's words for C3: a question text "fully wrapped in a
matching quote pair (straight or curly)" — both quotes present and of the
same (matching) kind. -/
def spec_matching_quote_pair (t : Str) : Prop :=
  2 ≤ t.length ∧
    ((t.head? = some '"' ∧ t.getLast? = some '"') ∨
     (t.head? = some '“' ∧ t.getLast? = some '”'))

instance (t : Str) : Decidable (spec_matching_quote_pair t) := by
  unfold spec_matching_quote_pair
  infer_instance

/-! The best-fit-decreasing merger (source `best_fit_decreasing`). -/

/-- Overall output header, `"%%tana%%\n\n"` (the merger's `prefix` variable
and the splitter's `overall_header`). -/
def overall_header : Str := "%%tana%%\n\n".toList

/-- Strip one leading header from a chunk, as the merger does before
packing (`c[len(prefix):] if c.startswith(prefix) else c`). -/
def strip_chunk (c : Str) : Str :=
  if overall_header.isPrefixOf c then c.drop overall_header.length else c

/-- Stable insertion placing `info` after every element of at least its
size: together with the left fold below this models Python's stable
`sort(key=lambda x: x[1], reverse=True)` (any two stable descending sorts of
the same list by the same key coincide). -/
def insert_desc (info : Str × Nat) : List (Str × Nat) → List (Str × Nat)
  | [] => [info]
  | b :: bs => if info.2 ≤ b.2 then b :: insert_desc info bs else info :: b :: bs

/-- Stable descending sort of `(content, size)` pairs by size. -/
def sort_desc (l : List (Str × Nat)) : List (Str × Nat) :=
  l.foldl (fun acc i => insert_desc i acc) []

/-- The merger's scan for the best existing bin (source lines 408-415):
walk the bins with their indices, tracking the index of the bin whose
leftover after accepting the chunk would be smallest.  `leftover` is
`max_chars - used` clamped at zero; in Python it can be negative, but then
`size + 2 <= leftover` fails exactly as it does for the clamped value. -/
def find_best_loop (max_chars size : Nat) :
    List (Str × Nat) → Nat → Option Nat → Nat → Option Nat
  | [], _, best_idx, _ => best_idx
  | b :: bins, i, best_idx, best_leftover =>
    let leftover := max_chars - b.2
    if size + 2 ≤ leftover then
      if leftover - (size + 2) < best_leftover then
        find_best_loop max_chars size bins (i + 1) (some i) (leftover - (size + 2))
      else find_best_loop max_chars size bins (i + 1) best_idx best_leftover
    else find_best_loop max_chars size bins (i + 1) best_idx best_leftover

/-- Best bin index for a chunk of the given size (`best_idx`, starting from
`-1`/`none` and `best_leftover = max_chars + 1`). -/
def find_best_idx (max_chars size : Nat) (bins : List (Str × Nat)) : Option Nat :=
  find_best_loop max_chars size bins 0 none (max_chars + 1)

/-- Append a chunk to the bin at the given index (source line 418):
`(bin_text + "\n\n" + content, bin_used + size + 2)`. -/
def merge_into (info : Str × Nat) : Nat → List (Str × Nat) → List (Str × Nat)
  | _, [] => []
  | 0, b :: bs => (b.1 ++ '\n' :: '\n' :: info.1, b.2 + info.2 + 2) :: bs
  | i + 1, b :: bs => b :: merge_into info i bs

/-- Place one chunk: merge into the best-fitting bin, or open a new bin. -/
def place_chunk (max_chars : Nat) (bins : List (Str × Nat))
    (info : Str × Nat) : List (Str × Nat) :=
  match find_best_idx max_chars info.2 bins with
  | some i => merge_into info i bins
  | none => bins ++ [info]

/-- The merger's sorted `chunk_info` list. -/
def bfd_infos (chunks : List Str) : List (Str × Nat) :=
  sort_desc (chunks.map (fun c => (strip_chunk c, (strip_chunk c).length)))

/-- Source `best_fit_decreasing(chunks, max_chars)`: strip each chunk's
header, sort by descending size, place each chunk into the best-fitting bin,
and render each bin under one header. -/
def best_fit_decreasing (chunks : List Str) (max_chars : Nat) : List Str :=
  ((bfd_infos chunks).foldl (place_chunk max_chars) []).map
    (fun b => overall_header ++ b.1)

/-! The structural chunk splitter (source `split_conversation_by_qna` and
`split_tana_by_conversations`). -/

/-- Header terminator searched for inside lines: `"  - Chat::"`. -/
def chat_marker : Str := "  - Chat::".toList

/-- Python `pat in line` (substring test). -/
def contains_sub (pat : Str) : Str → Bool
  | [] => pat.isEmpty
  | c :: rest => pat.isPrefixOf (c :: rest) || contains_sub pat rest

/-- Split a conversation's lines into header lines (everything up to and
including the first line containing `"  - Chat::"`) and the remaining lines;
when no line contains the marker, every line belongs to the header. -/
def header_split : List Str → List Str × List Str
  | [] => ([], [])
  | l :: ls =>
    if contains_sub chat_marker l then ([l], ls)
    else (l :: (header_split ls).1, (header_split ls).2)

/-- Start-of-block test (source lines 234-235):
`line.strip().startswith("- #chatgptquestion")` or the (unreachable, kept
verbatim) variant with leading spaces. -/
def q_start (l : Str) : Bool :=
  ("- #chatgptquestion".toList).isPrefixOf (pyStrip l) ||
  ("    - #chatgptquestion".toList).isPrefixOf (pyStrip l)

/-- Close the current Q-A block: oversized blocks are force-split at line
level (source lines 236-243 and 245-251). -/
def qna_flush (max_chars : Nat) (blocks cur : List Str) : List Str :=
  if cur = [] then blocks
  else if max_chars < (joinNL cur).length then
    blocks ++ force_split_large_qna_block (joinNL cur) max_chars
  else blocks ++ [joinNL cur]

/-- Walk the lines after the header, cutting at block-start lines. -/
def qna_collect (max_chars : Nat) : List Str → List Str → List Str → List Str
  | [], blocks, cur => qna_flush max_chars blocks cur
  | l :: ls, blocks, cur =>
    if q_start l then qna_collect max_chars ls (qna_flush max_chars blocks cur) [l]
    else qna_collect max_chars ls blocks (cur ++ [l])

/-- Source `finalize_chunk` inside `split_conversation_by_qna`:
`header_text + "\n\n" + "\n\n".join(chunk_lines)`. -/
def finalize_conv_chunk (header_text : Str) (cur : List Str) : Str :=
  header_text ++ '\n' :: '\n' :: joinNN cur

/-- Pack the blocks into chunks, each re-seeded with the header (source
lines 259-268); `clen` is the running `current_length`. -/
def conv_pack (header_text : Str) (max_chars : Nat) :
    List Str → List Str → Nat → List Str
  | [], cur, _ => if cur = [] then [] else [finalize_conv_chunk header_text cur]
  | b :: bs, cur, clen =>
    if max_chars < clen + (b.length + 2) ∧ cur ≠ [] then
      finalize_conv_chunk header_text cur ::
        conv_pack header_text max_chars bs [b]
          (header_text.length + 2 + (b.length + 2))
    else conv_pack header_text max_chars bs (cur ++ [b]) (clen + (b.length + 2))

/-- The conversation's header text as extracted by the splitter. -/
def conv_header_text (conv_text : Str) : Str :=
  joinNL (header_split (pySplitlines conv_text)).1

/-- Source `split_conversation_by_qna(conv_text, max_chars)`: split one
conversation at Q-A block boundaries into chunks, each re-including the
header. -/
def split_conversation_by_qna (conv_text : Str) (max_chars : Nat) : List Str :=
  conv_pack (conv_header_text conv_text) max_chars
    (qna_collect max_chars (header_split (pySplitlines conv_text)).2 [] [])
    [] ((conv_header_text conv_text).length + 2)

/-- Conversation separator used by `body.split("\n\n- ")`. -/
def conv_sep : Str := "\n\n- ".toList

/-- Python `body.split("\n\n- ")` (non-overlapping, left to right;
`"".split(sep) = [""]`), structurally recursive on fuel so that it evaluates
by reduction; every step consumes at least one character and one unit of
fuel, so fuel `s.length` is never exhausted. -/
def split_convs_aux : Nat → Str → List Str
  | _, [] => [[]]
  | 0, s => [s]
  | fuel + 1, c :: rest =>
    if conv_sep.isPrefixOf (c :: rest) then
      [] :: split_convs_aux fuel ((c :: rest).drop conv_sep.length)
    else
      match split_convs_aux fuel rest with
      | [] => [[c]]
      | p :: ps => (c :: p) :: ps

def split_convs (s : Str) : List Str := split_convs_aux s.length s

/-- Source `finalize_chunk` inside `split_tana_by_conversations`:
`overall_header + "\n\n".join(chunk_list)`. -/
def finalize_top (cur : List Str) : Str := overall_header ++ joinNN cur

/-- The loop over conversations (source lines 291-310): an oversized
conversation is handed to `split_conversation_by_qna` (after flushing the
current chunk); others are packed greedily with a 2-character separator cost
between consecutive conversations in a chunk. -/
def conv_loop (max_chars : Nat) : List Str → List Str → Nat → List Str
  | [], cur, _ => if cur = [] then [] else [finalize_top cur]
  | convo :: rest, cur, clen =>
    if max_chars < convo.length + overall_header.length then
      (if cur = [] then [] else [finalize_top cur]) ++
        split_conversation_by_qna (overall_header ++ convo) max_chars ++
        conv_loop max_chars rest [] overall_header.length
    else
      if max_chars < clen + convo.length + (if cur = [] then 0 else 2) ∧
          cur ≠ [] then
        finalize_top cur ::
          conv_loop max_chars rest [convo]
            (overall_header.length + convo.length)
      else
        conv_loop max_chars rest (cur ++ [convo])
          (clen + convo.length + (if cur = [] then 0 else 2))

/-- The conversation pieces: `convos = [convos[0]] + ["- " + c for c in
convos[1:]]` (source lines 280-284). -/
def top_convos (body : Str) : List Str :=
  match split_convs body with
  | [] => []
  | c :: cs => c :: cs.map (fun p => '-' :: ' ' :: p)

/-- Source `split_tana_by_conversations(tana_text, max_chars)`: strip the
overall header, split the body at conversation boundaries (`"\n\n- "`,
re-prepending `"- "` to every piece but the first), and pack. -/
def split_tana_by_conversations (tana_text : Str) (max_chars : Nat) : List Str :=
  conv_loop max_chars
    (top_convos (if overall_header.isPrefixOf tana_text then
        tana_text.drop overall_header.length else tana_text))
    [] overall_header.length

/-- Text that cannot begin a header marker: its first character (if any) is
not `'%'`.  Chunk bodies produced by the splitter all satisfy this. -/
def head_ok (s : Str) : Prop := s.head? ≠ some '%'

/-- A conversation piece as produced by the body split: empty or starting
with `'-'`. -/
def conv_ok (v : Str) : Prop := v = [] ∨ v.head? = some '-'

/-! Lemmas about `joinNL` and the forced line-level split. -/

theorem joinNL_cons_ne (a : Str) (X : List Str) (h : X ≠ []) :
    joinNL (a :: X) = a ++ '\n' :: joinNL X := by
  cases X with
  | nil => exact absurd rfl h
  | cons x xs => rfl

theorem joinNL_append (a b : List Str) (ha : a ≠ []) (hb : b ≠ []) :
    joinNL (a ++ b) = joinNL a ++ '\n' :: joinNL b := by
  induction a with
  | nil => exact absurd rfl ha
  | cons x xs ih =>
    cases xs with
    | nil => simpa [joinNL] using joinNL_cons_ne x b hb
    | cons y ys =>
      have h1 : (y :: ys) ++ b ≠ [] := by simp
      rw [List.cons_append, joinNL_cons_ne x ((y :: ys) ++ b) h1, ih (by simp),
        joinNL_cons_ne x (y :: ys) (by simp)]
      simp

theorem force_split_loop_ne_nil (available : Nat) :
    ∀ (lines cur : List Str) (clen : Nat), cur ≠ [] →
      force_split_loop available lines cur clen ≠ [] := by
  intro lines
  induction lines with
  | nil => intro cur clen h; simp [force_split_loop, h]
  | cons line rest ih =>
    intro cur clen h
    simp only [force_split_loop]
    split
    · simp
    · exact ih (cur ++ [line]) _ (by simp)

theorem force_split_loop_join (available : Nat) :
    ∀ (lines cur : List Str) (clen : Nat),
      joinNL (force_split_loop available lines cur clen) = joinNL (cur ++ lines) := by
  intro lines
  induction lines with
  | nil => intro cur clen; by_cases h : cur = [] <;> simp [force_split_loop, h, joinNL]
  | cons line rest ih =>
    intro cur clen
    simp only [force_split_loop]
    split
    · rename_i h
      have hX := force_split_loop_ne_nil available rest [line] (line.length + 1) (by simp)
      rw [joinNL_cons_ne _ _ hX, ih [line] _,
        joinNL_append cur (line :: rest) h.2 (by simp)]
      simp
    · rw [ih (cur ++ [line]) _]
      simp

theorem joinNL_length_cur (cur : List Str) (h : cur ≠ []) :
    (joinNL cur).length + 1 = (cur.map (fun l => l.length + 1)).sum := by
  induction cur with
  | nil => exact absurd rfl h
  | cons x xs ih =>
    cases xs with
    | nil => simp [joinNL]
    | cons y ys =>
      rw [joinNL_cons_ne x (y :: ys) (by simp)]
      simp only [List.map_cons, List.sum_cons] at *
      have := ih (by simp)
      simp only [List.length_append, List.length_cons]
      omega

theorem force_split_loop_bound (available : Nat) :
    ∀ (lines cur : List Str) (clen : Nat),
      (∀ l ∈ lines, l.length + 1 ≤ available) →
      (cur = [] → clen = 0) →
      (cur ≠ [] → (joinNL cur).length + 1 = clen ∧ clen ≤ available) →
      ∀ p ∈ force_split_loop available lines cur clen, p.length ≤ available := by
  intro lines
  induction lines with
  | nil =>
    intro cur clen _ _ hcur p hp
    by_cases h : cur = []
    · simp [force_split_loop, h] at hp
    · simp [force_split_loop, h] at hp
      obtain ⟨h1, h2⟩ := hcur h
      subst hp
      omega
  | cons line rest ih =>
    intro cur clen hlines hz hcur p hp
    have hline : line.length + 1 ≤ available := hlines line (by simp)
    have hrest : ∀ l ∈ rest, l.length + 1 ≤ available := fun l hl => hlines l (by simp [hl])
    simp only [force_split_loop] at hp
    split at hp
    · rename_i h
      obtain ⟨h1, h2⟩ := hcur h.2
      rcases List.mem_cons.mp hp with rfl | hp'
      · omega
      · refine ih [line] (line.length + 1) hrest (by simp)
          (fun _ => ⟨by simp [joinNL], hline⟩) p hp'
    · rename_i h
      by_cases hc : cur = []
      · have hclen : clen = 0 := hz hc
        subst hc hclen
        refine ih [line] _ hrest (by simp)
          (fun _ => ⟨by simp [joinNL], by omega⟩) p hp
      · have hle : clen + (line.length + 1) ≤ available := by
          by_contra hlt
          exact h ⟨by omega, hc⟩
        refine ih (cur ++ [line]) _ hrest (by simp) (fun _ => ⟨?_, hle⟩) p hp
        rw [joinNL_append cur [line] hc (by simp)]
        have h1 := (hcur hc).1
        simp only [joinNL, List.length_append, List.length_cons]
        omega

/-! Lemmas about `pyStrip`. -/

theorem isWs_head_dropWhile (l : Str) (c : Char)
    (h : (l.dropWhile isWs).head? = some c) : isWs c = false := by
  induction l with
  | nil => simp [List.dropWhile] at h
  | cons x xs ih =>
    by_cases hx : isWs x
    · rw [List.dropWhile_cons_of_pos hx] at h
      exact ih h
    · rw [List.dropWhile_cons_of_neg hx] at h
      simp only [List.head?_cons, Option.some.injEq] at h
      subst h
      simpa using hx

theorem dropWhile_eq_self_of_head (l : Str)
    (h : ∀ c, l.head? = some c → isWs c = false) : l.dropWhile isWs = l := by
  cases l with
  | nil => rfl
  | cons x xs =>
    have := h x rfl
    simp [List.dropWhile, this]

theorem dropTrail_decomp (l : Str) :
    l = dropTrail l ++ (l.reverse.takeWhile isWs).reverse ∧
    ∀ c ∈ (l.reverse.takeWhile isWs).reverse, isWs c = true := by
  constructor
  · have h := List.takeWhile_append_dropWhile (isWs) (l := l.reverse)
    have h2 := congrArg List.reverse h
    rw [List.reverse_append, List.reverse_reverse] at h2
    exact h2.symm
  · intro c hc
    exact List.mem_takeWhile_imp (List.mem_reverse.mp hc)

theorem dropTrail_head? (l : Str) (h : dropTrail l ≠ []) :
    (dropTrail l).head? = l.head? := by
  obtain ⟨hd, _⟩ := dropTrail_decomp l
  conv_rhs => rw [hd]
  exact (List.head?_append_of_ne_nil _ h).symm

theorem dropTrail_getLast? (l : Str) (c : Char)
    (h : (dropTrail l).getLast? = some c) : isWs c = false := by
  have : (dropTrail l).getLast? = (l.reverse.dropWhile isWs).head? := by
    simp [dropTrail]
  rw [this] at h
  exact isWs_head_dropWhile _ _ h

theorem dropTrail_eq_self_of_getLast (l : Str)
    (h : ∀ c, l.getLast? = some c → isWs c = false) : dropTrail l = l := by
  have : l.reverse.dropWhile isWs = l.reverse := by
    refine dropWhile_eq_self_of_head _ (fun c hc => h c ?_)
    rwa [List.head?_reverse] at hc
  simp [dropTrail, this]

theorem pyStrip_head? (l : Str) (c : Char)
    (h : (pyStrip l).head? = some c) : isWs c = false := by
  have hne : pyStrip l ≠ [] := by intro he; rw [he] at h; simp at h
  rw [pyStrip, dropTrail_head? _ hne] at h
  exact isWs_head_dropWhile _ _ h

theorem pyStrip_getLast? (l : Str) (c : Char)
    (h : (pyStrip l).getLast? = some c) : isWs c = false :=
  dropTrail_getLast? _ _ h

theorem pyStrip_eq_self (l : Str)
    (hh : ∀ c, l.head? = some c → isWs c = false)
    (hl : ∀ c, l.getLast? = some c → isWs c = false) : pyStrip l = l := by
  rw [pyStrip, dropLead, dropWhile_eq_self_of_head _ hh,
    dropTrail_eq_self_of_getLast _ hl]

theorem extract_text_head (m : Message) (c : Char)
    (h : (extract_text m).head? = some c) : isWs c = false :=
  pyStrip_head? _ _ h

theorem extract_text_getLast (m : Message) (c : Char)
    (h : (extract_text m).getLast? = some c) : isWs c = false :=
  pyStrip_getLast? _ _ h

/-- Striping a newline-join of two already-stripped, non-empty texts is the
identity: the join's first and last characters are not whitespace. -/
theorem pyStrip_join_two (a b : Str) (ha : a ≠ []) (hb : b ≠ [])
    (ha1 : ∀ c, a.head? = some c → isWs c = false)
    (hb1 : ∀ c, b.getLast? = some c → isWs c = false) :
    pyStrip (a ++ '\n' :: b) = a ++ '\n' :: b := by
  refine pyStrip_eq_self _ (fun c hc => ?_) (fun c hc => ?_)
  · rw [List.head?_append_of_ne_nil _ ha] at hc
    exact ha1 c hc
  · have h1 : a ++ '\n' :: b = (a ++ ['\n']) ++ b := by simp
    rw [h1, List.getLast?_append_of_ne_nil _ hb] at hc
    exact hb1 c hc

/-! Lemmas connecting the quote tests to first/last characters. -/

theorem singleton_isPrefixOf (c : Char) (t : Str) :
    [c].isPrefixOf t = true ↔ t.head? = some c := by
  cases t with
  | nil => simp [List.isPrefixOf]
  | cons x xs =>
    simp only [List.isPrefixOf, Bool.and_eq_true, beq_iff_eq, List.isPrefixOf_nil_left,
      and_true, List.head?_cons, Option.some.injEq]
    exact eq_comm

theorem singleton_isSuffixOf (c : Char) (t : Str) :
    [c].isSuffixOf t = true ↔ t.getLast? = some c := by
  rw [List.isSuffixOf]
  have h1 : ([c] : Str).reverse = [c] := rfl
  rw [h1, singleton_isPrefixOf, List.head?_reverse]

/-- Claim C7, counterexample: the claim says every piece returned by the
forced line-level sub-split has length at most the available budget, for
every block and every positive budget.  On the one-line block `"aaaaa"` with
budget `3` the function returns the whole line as a single piece of length
`5 > 3`: a line longer than the budget is never cut. -/
theorem claim_C7_counterexample :
    ∃ p ∈ force_split_large_qna_block ("aaaaa".toList) 3, 3 < p.length := by
  decide

/-- Claim C7, amended: the forced line-level sub-split breaks the block only
at line boundaries (joining the pieces with newlines reconstructs the block's
lines), and every returned piece has length at most the available budget
provided each single line of the block fits the budget (`len(line) + 1 ≤
available`); a longer line becomes its own, oversized piece. -/
theorem claim_C7_amended (qa_block : Str) (available : Nat)
    (hlines : ∀ l ∈ pySplitlines qa_block, l.length + 1 ≤ available) :
    (∀ p ∈ force_split_large_qna_block qa_block available, p.length ≤ available) ∧
    joinNL (force_split_large_qna_block qa_block available) =
      joinNL (pySplitlines qa_block) := by
  constructor
  · exact force_split_loop_bound available (pySplitlines qa_block) [] 0
      hlines (fun _ => rfl) (fun h => absurd rfl h)
  · simpa using force_split_loop_join available (pySplitlines qa_block) [] 0

/-- Claim C7, witness: the amended theorem applied to the block
`"ab\ncd\nef"` with budget `5`. -/
theorem claim_C7_witness :
    (∀ p ∈ force_split_large_qna_block ("ab\ncd\nef".toList) 5, p.length ≤ 5) ∧
    joinNL (force_split_large_qna_block ("ab\ncd\nef".toList) 5) =
      joinNL (pySplitlines ("ab\ncd\nef".toList)) :=
  claim_C7_amended ("ab\ncd\nef".toList) 5 (by decide)

/-- Claim C2: a user message (with non-empty extracted text) arriving while a
question is pending and the answer buffer is empty drops the pending question
without emitting anything — the output lines are unchanged — and becomes the
new pending question with an empty buffer. -/
theorem claim_C2 (fmt : Int → Str) (header_len : Nat) (q m : Message)
    (out : List Str) (htext : extract_text m ≠ [])
    (hrole : m.role = "user".toList) :
    process_message fmt header_len ⟨some q, [], out⟩ m = ⟨some m, [], out⟩ := by
  simp [process_message, htext, hrole, finalize_qa]

/-- Claim C2, witness: the transition theorem applied to two concrete user
messages. -/
theorem claim_C2_witness :
    process_message (fun _ => []) 0
        ⟨some ⟨"user".toList, [.plain "q1".toList], none⟩, [], ["x".toList]⟩
        ⟨"user".toList, [.plain "q2".toList], some 5⟩ =
      ⟨some ⟨"user".toList, [.plain "q2".toList], some 5⟩, [], ["x".toList]⟩ :=
  claim_C2 (fun _ => []) 0 ⟨"user".toList, [.plain "q1".toList], none⟩
    ⟨"user".toList, [.plain "q2".toList], some 5⟩ ["x".toList]
    (by decide) rfl

/-- Claim C10: a message whose extracted text is empty is skipped before role
dispatch — the consolidator state (pending question, answer buffer, output)
is unchanged, whatever the role. -/
theorem claim_C10 (fmt : Int → Str) (header_len : Nat) (s : ConsState)
    (m : Message) (h : extract_text m = []) :
    process_message fmt header_len s m = s := by
  simp [process_message, h]

/-- Claim C10, witness: a user message with a whitespace-only part leaves a
concrete mid-conversation state untouched. -/
theorem claim_C10_witness :
    process_message (fun _ => []) 7
        ⟨some ⟨"user".toList, [.plain "q".toList], none⟩, ["a".toList], ["o".toList]⟩
        ⟨"user".toList, [.plain "  ".toList], some 3⟩ =
      ⟨some ⟨"user".toList, [.plain "q".toList], none⟩, ["a".toList], ["o".toList]⟩ :=
  claim_C10 (fun _ => []) 7
    ⟨some ⟨"user".toList, [.plain "q".toList], none⟩, ["a".toList], ["o".toList]⟩
    ⟨"user".toList, [.plain "  ".toList], some 3⟩ (by decide)

/-- Claim C3, counterexample: the claim says a record is classified "voice"
if and only if the question text is wrapped in a MATCHING quote pair.  The
text `"hi”` opens with a straight quote and closes with a curly one — not a
matching pair — yet the code classifies it "voice": the two ends are tested
independently. -/
theorem claim_C3_counterexample :
    chat_type_of ("\"hi”".toList) = "voice".toList ∧
      ¬ spec_matching_quote_pair ("\"hi”".toList) := by
  exact ⟨by decide, by decide⟩

/-- Claim C3, amended: a question text is classified "voice" if and only if
its first character is a straight or curly opening quote AND its last
character is a straight or curly closing quote, tested independently (the
pair need not match); in that case the first and last characters are removed
and the remainder trimmed, and every other text is classified "text" and
rendered unchanged. -/
theorem claim_C3_amended (t : Str) :
    (chat_type_of t = "voice".toList ↔
      ((t.head? = some '“' ∨ t.head? = some '"') ∧
       (t.getLast? = some '”' ∨ t.getLast? = some '"'))) ∧
    (chat_type_of t = "voice".toList →
      question_text_of t = pyStrip ((t.drop 1).dropLast)) ∧
    (chat_type_of t ≠ "voice".toList →
      question_text_of t = t ∧ chat_type_of t = "text".toList) := by
  have hiff : classifyQuoted t = true ↔
      ((t.head? = some '“' ∨ t.head? = some '"') ∧
       (t.getLast? = some '”' ∨ t.getLast? = some '"')) := by
    rw [classifyQuoted, Bool.and_eq_true, Bool.or_eq_true, Bool.or_eq_true,
      singleton_isPrefixOf, singleton_isPrefixOf,
      singleton_isSuffixOf, singleton_isSuffixOf]
  have hclass : chat_type_of t = "voice".toList ↔ classifyQuoted t = true := by
    rw [chat_type_of]
    cases h : classifyQuoted t
    · simp only [Bool.false_eq_true, if_false]
      exact ⟨fun hx => absurd hx (by decide), fun hx => by cases hx⟩
    · simp
  refine ⟨hclass.trans hiff, fun hv => ?_, fun hv => ?_⟩
  · simp [question_text_of, hclass.mp hv]
  · have hq' : classifyQuoted t = false := by
      cases h : classifyQuoted t
      · rfl
      · exact absurd (hclass.mpr h) hv
    exact ⟨by simp [question_text_of, hq'], by simp [chat_type_of, hq']⟩

/-- Claim C3, witness: the amended characterization applied to the curly
quoted text `“hi”`. -/
theorem claim_C3_witness :
    (chat_type_of ("“hi”".toList) = "voice".toList ↔
      ((("“hi”".toList).head? = some '“' ∨ ("“hi”".toList).head? = some '"') ∧
       (("“hi”".toList).getLast? = some '”' ∨ ("“hi”".toList).getLast? = some '"'))) ∧
    (chat_type_of ("“hi”".toList) = "voice".toList →
      question_text_of ("“hi”".toList) =
        pyStrip ((("“hi”".toList).drop 1).dropLast)) ∧
    (chat_type_of ("“hi”".toList) ≠ "voice".toList →
      question_text_of ("“hi”".toList) = "“hi”".toList ∧
      chat_type_of ("“hi”".toList) = "text".toList) :=
  claim_C3_amended ("“hi”".toList)

/-- Claim C8: one user message followed by two assistant messages (all with
non-empty extracted text, and small enough that the rendered block fits a
file next to the conversation header) yields exactly one Q-A block, whose
answer is the two assistant texts joined by a single newline. -/
theorem claim_C8 (fmt : Int → Str) (header_len : Nat) (m1 m2 m3 : Message)
    (h1 : extract_text m1 ≠ []) (h2 : extract_text m2 ≠ [])
    (h3 : extract_text m3 ≠ [])
    (hr1 : m1.role = "user".toList) (hr2 : m2.role = "assistant".toList)
    (hr3 : m3.role = "assistant".toList)
    (hsize : (qa_block_of fmt m1
        (extract_text m2 ++ '\n' :: extract_text m3)).length + header_len ≤
        MAX_FILE_SIZE) :
    (consolidate fmt header_len [m1, m2, m3]).out =
      [qa_block_of fmt m1 (extract_text m2 ++ '\n' :: extract_text m3), []] := by
  have hau : ("assistant".toList : Str) ≠ "user".toList := by decide
  have hkey : pyStrip (joinNL [extract_text m2, extract_text m3]) =
      extract_text m2 ++ '\n' :: extract_text m3 := by
    have hj : joinNL [extract_text m2, extract_text m3] =
        extract_text m2 ++ '\n' :: extract_text m3 := by simp [joinNL]
    rw [hj]
    exact pyStrip_join_two _ _ h2 h3 (extract_text_head m2) (extract_text_getLast m3)
  have hs1 : process_message fmt header_len ⟨none, [], []⟩ m1 = ⟨some m1, [], []⟩ := by
    simp [process_message, h1, hr1, finalize_qa]
  have hs2 : process_message fmt header_len ⟨some m1, [], []⟩ m2 =
      ⟨some m1, [extract_text m2], []⟩ := by
    simp [process_message, h2, hr2, hau]
  have hs3 : process_message fmt header_len
      ⟨some m1, [extract_text m2], []⟩ m3 =
      ⟨some m1, [extract_text m2, extract_text m3], []⟩ := by
    simp [process_message, h3, hr3, hau]
  rw [consolidate, List.foldl_cons, hs1, List.foldl_cons, hs2,
    List.foldl_cons, hs3, List.foldl_nil, finalize_qa]
  simp only [hkey]
  rw [if_neg (by simp), if_neg (by omega)]
  simp

/-- Claim C8, witness: a concrete three-message conversation producing one
Q-A block with the two answers joined by a newline. -/
theorem claim_C8_witness :
    (consolidate (fun _ => []) 40
        [⟨"user".toList, [.plain "ask".toList], some 1⟩,
         ⟨"assistant".toList, [.plain "a1".toList], some 2⟩,
         ⟨"assistant".toList, [.plain "a2".toList], some 3⟩]).out =
      [qa_block_of (fun _ => []) ⟨"user".toList, [.plain "ask".toList], some 1⟩
        (extract_text ⟨"assistant".toList, [.plain "a1".toList], some 2⟩ ++ '\n' ::
         extract_text ⟨"assistant".toList, [.plain "a2".toList], some 3⟩), []] :=
  claim_C8 (fun _ => []) 40
    ⟨"user".toList, [.plain "ask".toList], some 1⟩
    ⟨"assistant".toList, [.plain "a1".toList], some 2⟩
    ⟨"assistant".toList, [.plain "a2".toList], some 3⟩
    (by decide) (by decide) (by decide) rfl rfl rfl (by decide)

/-! Lemmas for the conversation reader's stable sort. -/

theorem msgLe_trans (a b c : Message) (h1 : msgLe a b) (h2 : msgLe b c) :
    msgLe a c = true := by
  simp only [msgLe, decide_eq_true_eq] at *
  omega

theorem msgLe_total (a b : Message) : (msgLe a b || msgLe b a) = true := by
  simp only [msgLe, Bool.or_eq_true, decide_eq_true_eq]
  omega

theorem mergeSort_filter_key (l : List Message) (k : Int) :
    (l.mergeSort msgLe).filter (fun m => sort_key m == k) =
      l.filter (fun m => sort_key m == k) := by
  have hpw : (l.filter (fun m => sort_key m == k)).Pairwise
      (fun a b => msgLe a b = true) := by
    refine List.pairwise_of_forall_mem_list (fun a ha b hb => ?_)
    have ha' := List.of_mem_filter ha
    have hb' := List.of_mem_filter hb
    simp only [beq_iff_eq] at ha' hb'
    simp only [msgLe, decide_eq_true_eq, ha', hb']
    omega
  have hsub : List.Sublist (l.filter (fun m => sort_key m == k)) (l.mergeSort msgLe) :=
    List.sublist_mergeSort msgLe_trans msgLe_total hpw (List.filter_sublist l)
  have hsub2 : List.Sublist (l.filter (fun m => sort_key m == k))
      ((l.mergeSort msgLe).filter (fun m => sort_key m == k)) := by
    have h := hsub.filter (fun m => sort_key m == k)
    rwa [List.filter_filter, show
      (fun m => (sort_key m == k) && (sort_key m == k)) =
        (fun m => sort_key m == k) from funext (fun m => Bool.and_self _)] at h
  have hlen : ((l.mergeSort msgLe).filter (fun m => sort_key m == k)).length =
      (l.filter (fun m => sort_key m == k)).length :=
    ((List.mergeSort_perm l msgLe).filter (fun m => sort_key m == k)).length_eq
  exact (hsub2.eq_of_length hlen.symm).symm

/-- Claim C4: the message sequence fed to the consolidator is the mapping's
messages (enumeration order) stably sorted by ascending creation timestamp
with a missing timestamp treated as zero: the result is a permutation of the
gathered messages, it is sorted by the key, and for every key value the
messages with that key appear in their original enumeration order. -/
theorem claim_C4 (mapping : List (Option Message)) :
    List.Perm (conversation_messages mapping) (gather_messages mapping) ∧
    (conversation_messages mapping).Pairwise
      (fun a b => sort_key a ≤ sort_key b) ∧
    ∀ k : Int,
      (conversation_messages mapping).filter (fun m => sort_key m == k) =
        (gather_messages mapping).filter (fun m => sort_key m == k) := by
  refine ⟨List.mergeSort_perm _ _, ?_, fun k => mergeSort_filter_key _ k⟩
  have h := List.sorted_mergeSort msgLe_trans msgLe_total (gather_messages mapping)
  exact h.imp (fun hab => by simpa [msgLe, decide_eq_true_eq] using hab)

/-- Claim C4, witness: the reader applied to a concrete mapping with a
missing timestamp and a tie. -/
theorem claim_C4_witness :
    List.Perm
      (conversation_messages
        [some ⟨"user".toList, [], some 9⟩, none,
         some ⟨"assistant".toList, [], none⟩,
         some ⟨"tool".toList, [], some 9⟩])
      (gather_messages
        [some ⟨"user".toList, [], some 9⟩, none,
         some ⟨"assistant".toList, [], none⟩,
         some ⟨"tool".toList, [], some 9⟩]) ∧
    (conversation_messages
        [some ⟨"user".toList, [], some 9⟩, none,
         some ⟨"assistant".toList, [], none⟩,
         some ⟨"tool".toList, [], some 9⟩]).Pairwise
      (fun a b => sort_key a ≤ sort_key b) ∧
    ∀ k : Int,
      (conversation_messages
          [some ⟨"user".toList, [], some 9⟩, none,
           some ⟨"assistant".toList, [], none⟩,
           some ⟨"tool".toList, [], some 9⟩]).filter (fun m => sort_key m == k) =
        (gather_messages
          [some ⟨"user".toList, [], some 9⟩, none,
           some ⟨"assistant".toList, [], none⟩,
           some ⟨"tool".toList, [], some 9⟩]).filter (fun m => sort_key m == k) :=
  claim_C4
    [some ⟨"user".toList, [], some 9⟩, none,
     some ⟨"assistant".toList, [], none⟩,
     some ⟨"tool".toList, [], some 9⟩]

/-! Lemmas for the best-fit-decreasing merger. -/

theorem insert_desc_perm (info : Str × Nat) (l : List (Str × Nat)) :
    List.Perm (insert_desc info l) (info :: l) := by
  induction l with
  | nil => simp [insert_desc]
  | cons b bs ih =>
    rw [insert_desc]
    split
    · exact ((ih.cons b).trans (List.Perm.swap _ _ _))
    · exact List.Perm.refl _

theorem sort_desc_perm_aux :
    ∀ (l acc : List (Str × Nat)),
      List.Perm (l.foldl (fun acc i => insert_desc i acc) acc) (acc ++ l) := by
  intro l
  induction l with
  | nil => intro acc; simp
  | cons i l ih =>
    intro acc
    rw [List.foldl_cons]
    have h1 := ih (insert_desc i acc)
    have h2 : List.Perm (insert_desc i acc ++ l) (i :: (acc ++ l)) :=
      (insert_desc_perm i acc).append_right l
    have h3 : List.Perm (acc ++ i :: l) (i :: (acc ++ l)) := List.perm_middle
    exact (h1.trans h2).trans h3.symm

theorem sort_desc_perm (l : List (Str × Nat)) : List.Perm (sort_desc l) l := by
  simpa [sort_desc] using sort_desc_perm_aux l []

theorem mem_bfd_infos (chunks : List Str) (i : Str × Nat) :
    i ∈ bfd_infos chunks ↔
      i ∈ chunks.map (fun c => (strip_chunk c, (strip_chunk c).length)) :=
  (sort_desc_perm _).mem_iff

theorem find_best_loop_some (max_chars size : Nat) :
    ∀ (bins : List (Str × Nat)) (i0 : Nat) (b0 : Option Nat) (l0 j : Nat),
      find_best_loop max_chars size bins i0 b0 l0 = some j →
      b0 = some j ∨
      ∃ pre b post, bins = pre ++ b :: post ∧ j = i0 + pre.length ∧
        size + 2 ≤ max_chars - b.2 := by
  intro bins
  induction bins with
  | nil =>
    intro i0 b0 l0 j h
    exact Or.inl h
  | cons b bins ih =>
    intro i0 b0 l0 j h
    rw [find_best_loop] at h
    have step : ∀ (b0' : Option Nat) (l0' : Nat),
        find_best_loop max_chars size bins (i0 + 1) b0' l0' = some j →
        b0' = some j ∨
        ∃ pre bb post, b :: bins = pre ++ bb :: post ∧ j = i0 + pre.length ∧
          size + 2 ≤ max_chars - bb.2 := by
      intro b0' l0' h'
      rcases ih (i0 + 1) b0' l0' j h' with h'' | ⟨pre, bb, post, he, hj, hg⟩
      · exact Or.inl h''
      · exact Or.inr ⟨b :: pre, bb, post, by rw [he]; simp, by simp; omega, hg⟩
    split at h
    · rename_i hguard
      split at h
      · rcases step (some i0) _ h with h'' | h''
        · obtain rfl : i0 = j := by injection h''
          exact Or.inr ⟨[], b, bins, rfl, by simp, hguard⟩
        · exact Or.inr h''
      · exact step b0 l0 h
    · exact step b0 l0 h

theorem find_best_idx_some (max_chars size : Nat) (bins : List (Str × Nat))
    (j : Nat) (h : find_best_idx max_chars size bins = some j) :
    ∃ pre b post, bins = pre ++ b :: post ∧ j = pre.length ∧
      size + 2 ≤ max_chars - b.2 := by
  rcases find_best_loop_some max_chars size bins 0 none _ j h with h' | ⟨pre, b, post, he, hj, hg⟩
  · cases h'
  · exact ⟨pre, b, post, he, by omega, hg⟩

theorem find_best_loop_none (max_chars size : Nat) (hbig : max_chars < size) :
    ∀ (bins : List (Str × Nat)) (i0 l0 : Nat),
      find_best_loop max_chars size bins i0 none l0 = none := by
  intro bins
  induction bins with
  | nil => intro i0 l0; rfl
  | cons b bins ih =>
    intro i0 l0
    rw [find_best_loop]
    rw [if_neg (by have := Nat.sub_le max_chars b.2; omega)]
    exact ih (i0 + 1) l0

theorem find_best_idx_none_of_big (max_chars size : Nat)
    (bins : List (Str × Nat)) (hbig : max_chars < size) :
    find_best_idx max_chars size bins = none :=
  find_best_loop_none max_chars size hbig bins 0 (max_chars + 1)

theorem merge_into_append (info : Str × Nat) (pre : List (Str × Nat))
    (b : Str × Nat) (post : List (Str × Nat)) :
    merge_into info pre.length (pre ++ b :: post) =
      pre ++ (b.1 ++ '\n' :: '\n' :: info.1, b.2 + info.2 + 2) :: post := by
  induction pre with
  | nil => rfl
  | cons p pre ih => simpa [merge_into] using ih

theorem place_chunk_inv (max_chars : Nat) (allInfos : List (Str × Nat))
    (bins : List (Str × Nat)) (info : Str × Nat)
    (hinfo : info ∈ allInfos) (hlen : info.1.length = info.2)
    (hbins : ∀ b ∈ bins, b.1.length = b.2 ∧ (b.2 ≤ max_chars ∨ b ∈ allInfos)) :
    ∀ b ∈ place_chunk max_chars bins info,
      b.1.length = b.2 ∧ (b.2 ≤ max_chars ∨ b ∈ allInfos) := by
  cases hf : find_best_idx max_chars info.2 bins with
  | none =>
    have hpl : place_chunk max_chars bins info = bins ++ [info] := by
      rw [place_chunk, hf]
    rw [hpl]
    intro b hb
    rcases List.mem_append.mp hb with hb' | hb'
    · exact hbins b hb'
    · rw [List.mem_singleton.mp hb']
      exact ⟨hlen, Or.inr hinfo⟩
  | some j =>
    obtain ⟨pre, b0, post, he, hj, hg⟩ := find_best_idx_some max_chars info.2 bins j hf
    subst he hj
    have hpl : place_chunk max_chars (pre ++ b0 :: post) info =
        pre ++ (b0.1 ++ '\n' :: '\n' :: info.1, b0.2 + info.2 + 2) :: post := by
      rw [place_chunk, hf]
      exact merge_into_append info pre b0 post
    rw [hpl]
    intro b hb
    rcases List.mem_append.mp hb with hb' | hb'
    · exact hbins b (List.mem_append.mpr (Or.inl hb'))
    · rcases List.mem_cons.mp hb' with rfl | hb''
      · have hb0 := hbins b0 (List.mem_append.mpr (Or.inr (List.mem_cons_self _ _)))
        constructor
        · simp only [List.length_append, List.length_cons]
          omega
        · left
          have := Nat.sub_le max_chars b0.2
          omega
      · exact hbins b (List.mem_append.mpr (Or.inr (List.mem_cons.mpr (Or.inr hb''))))

theorem bfd_fold_inv (max_chars : Nat) (allInfos : List (Str × Nat)) :
    ∀ (l bins : List (Str × Nat)),
      (∀ i ∈ l, i ∈ allInfos ∧ i.1.length = i.2) →
      (∀ b ∈ bins, b.1.length = b.2 ∧ (b.2 ≤ max_chars ∨ b ∈ allInfos)) →
      ∀ b ∈ l.foldl (place_chunk max_chars) bins,
        b.1.length = b.2 ∧ (b.2 ≤ max_chars ∨ b ∈ allInfos) := by
  intro l
  induction l with
  | nil => intro bins _ hbins; simpa using hbins
  | cons i l ih =>
    intro bins hl hbins
    rw [List.foldl_cons]
    refine ih _ (fun x hx => hl x (by simp [hx])) ?_
    exact place_chunk_inv max_chars allInfos bins i (hl i (by simp)).1
      (hl i (by simp)).2 hbins

theorem place_chunk_extends (max_chars : Nat) (bins : List (Str × Nat))
    (info : Str × Nat) (b : Str × Nat) (hb : b ∈ bins) :
    ∃ b' ∈ place_chunk max_chars bins info, ∃ t, b'.1 = b.1 ++ t := by
  cases hf : find_best_idx max_chars info.2 bins with
  | none =>
    have hpl : place_chunk max_chars bins info = bins ++ [info] := by
      rw [place_chunk, hf]
    rw [hpl]
    exact ⟨b, List.mem_append.mpr (Or.inl hb), [], by simp⟩
  | some j =>
    obtain ⟨pre, b0, post, he, hj, hg⟩ := find_best_idx_some max_chars info.2 bins j hf
    subst he hj
    have hpl : place_chunk max_chars (pre ++ b0 :: post) info =
        pre ++ (b0.1 ++ '\n' :: '\n' :: info.1, b0.2 + info.2 + 2) :: post := by
      rw [place_chunk, hf]
      exact merge_into_append info pre b0 post
    rw [hpl]
    rcases List.mem_append.mp hb with hb' | hb'
    · exact ⟨b, List.mem_append.mpr (Or.inl hb'), [], by simp⟩
    · rcases List.mem_cons.mp hb' with rfl | hb''
      · exact ⟨(b.1 ++ '\n' :: '\n' :: info.1, b.2 + info.2 + 2),
          List.mem_append.mpr (Or.inr (List.mem_cons_self _ _)),
          '\n' :: '\n' :: info.1, rfl⟩
      · exact ⟨b, List.mem_append.mpr (Or.inr (List.mem_cons.mpr (Or.inr hb''))), [], by simp⟩

theorem place_chunk_new (max_chars : Nat) (bins : List (Str × Nat))
    (info : Str × Nat) :
    ∃ b' ∈ place_chunk max_chars bins info, ∃ p, b'.1 = p ++ info.1 := by
  cases hf : find_best_idx max_chars info.2 bins with
  | none =>
    have hpl : place_chunk max_chars bins info = bins ++ [info] := by
      rw [place_chunk, hf]
    rw [hpl]
    exact ⟨info, List.mem_append.mpr (Or.inr (by simp)), [], by simp⟩
  | some j =>
    obtain ⟨pre, b0, post, he, hj, hg⟩ := find_best_idx_some max_chars info.2 bins j hf
    subst he hj
    have hpl : place_chunk max_chars (pre ++ b0 :: post) info =
        pre ++ (b0.1 ++ '\n' :: '\n' :: info.1, b0.2 + info.2 + 2) :: post := by
      rw [place_chunk, hf]
      exact merge_into_append info pre b0 post
    rw [hpl]
    exact ⟨(b0.1 ++ '\n' :: '\n' :: info.1, b0.2 + info.2 + 2),
      List.mem_append.mpr (Or.inr (List.mem_cons_self _ _)),
      b0.1 ++ ['\n', '\n'], by simp⟩

theorem bfd_fold_substr (max_chars : Nat) :
    ∀ (l bins : List (Str × Nat)) (s : Str),
      (∃ b ∈ bins, ∃ p q, b.1 = p ++ s ++ q) →
      ∃ b ∈ l.foldl (place_chunk max_chars) bins, ∃ p q, b.1 = p ++ s ++ q := by
  intro l
  induction l with
  | nil => intro bins s h; simpa using h
  | cons i l ih =>
    intro bins s h
    rw [List.foldl_cons]
    obtain ⟨b, hb, p, q, he⟩ := h
    obtain ⟨b', hb', t, he'⟩ := place_chunk_extends max_chars bins i b hb
    exact ih _ s ⟨b', hb', p, q ++ t, by rw [he', he]; simp⟩

theorem bfd_fold_contains (max_chars : Nat) :
    ∀ (l bins : List (Str × Nat)) (info : Str × Nat), info ∈ l →
      ∃ b ∈ l.foldl (place_chunk max_chars) bins, ∃ p q, b.1 = p ++ info.1 ++ q := by
  intro l
  induction l with
  | nil => intro bins info h; cases h
  | cons i l ih =>
    intro bins info h
    rw [List.foldl_cons]
    rcases List.mem_cons.mp h with rfl | h'
    · obtain ⟨b', hb', p, he⟩ := place_chunk_new max_chars bins info
      exact bfd_fold_substr max_chars l _ info.1 ⟨b', hb', p, [], by simp [he]⟩
    · exact ih _ info h'

theorem place_chunk_keeps_big (max_chars : Nat) (bins : List (Str × Nat))
    (info b0 : Str × Nat) (hbig : max_chars < b0.2) (hb : b0 ∈ bins) :
    b0 ∈ place_chunk max_chars bins info := by
  cases hf : find_best_idx max_chars info.2 bins with
  | none =>
    have hpl : place_chunk max_chars bins info = bins ++ [info] := by
      rw [place_chunk, hf]
    rw [hpl]
    exact List.mem_append.mpr (Or.inl hb)
  | some j =>
    obtain ⟨pre, c, post, he, hj, hg⟩ := find_best_idx_some max_chars info.2 bins j hf
    subst he hj
    have hpl : place_chunk max_chars (pre ++ c :: post) info =
        pre ++ (c.1 ++ '\n' :: '\n' :: info.1, c.2 + info.2 + 2) :: post := by
      rw [place_chunk, hf]
      exact merge_into_append info pre c post
    rw [hpl]
    have hcne : b0 ≠ c := by
      intro heq
      have := Nat.sub_le max_chars c.2
      have hc2 : c.2 ≤ max_chars := by omega
      rw [heq] at hbig
      omega
    rcases List.mem_append.mp hb with hb' | hb'
    · exact List.mem_append.mpr (Or.inl hb')
    · rcases List.mem_cons.mp hb' with heq | hb''
      · exact absurd heq hcne
      · exact List.mem_append.mpr (Or.inr (List.mem_cons.mpr (Or.inr hb'')))

theorem bfd_fold_keeps_big (max_chars : Nat) :
    ∀ (l bins : List (Str × Nat)) (b0 : Str × Nat), max_chars < b0.2 →
      b0 ∈ bins → b0 ∈ l.foldl (place_chunk max_chars) bins := by
  intro l
  induction l with
  | nil => intro bins b0 _ hb; simpa using hb
  | cons i l ih =>
    intro bins b0 hbig hb
    rw [List.foldl_cons]
    exact ih _ b0 hbig (place_chunk_keeps_big max_chars bins i b0 hbig hb)

theorem bfd_fold_places_big (max_chars : Nat) :
    ∀ (l bins : List (Str × Nat)) (info : Str × Nat), info ∈ l →
      max_chars < info.2 → info ∈ l.foldl (place_chunk max_chars) bins := by
  intro l
  induction l with
  | nil => intro bins info h; cases h
  | cons i l ih =>
    intro bins info h hbig
    rw [List.foldl_cons]
    rcases List.mem_cons.mp h with rfl | h'
    · refine bfd_fold_keeps_big max_chars l _ info hbig ?_
      have hpl : place_chunk max_chars bins info = bins ++ [info] := by
        rw [place_chunk, find_best_idx_none_of_big max_chars info.2 bins hbig]
      rw [hpl]
      exact List.mem_append.mpr (Or.inr (by simp))
    · exact ih _ info h' hbig

/-- Claim C1, counterexample: the claim bounds every final file by the
budget unless it wraps a single oversized chunk.  With budget `20` and two
chunks of stripped size `9` each (neither oversized, with or without its
header), the merger packs both into one bin — its own bound counts only the
stripped contents plus the 2-character separator — and then prepends the
10-character header, producing a single 30-character file. -/
theorem claim_C1_counterexample :
    best_fit_decreasing
        ["%%tana%%\n\naaaaaaaaa".toList, "%%tana%%\n\nbbbbbbbbb".toList] 20 =
      ["%%tana%%\n\naaaaaaaaa\n\nbbbbbbbbb".toList] ∧
    20 < ("%%tana%%\n\naaaaaaaaa\n\nbbbbbbbbb".toList).length ∧
    (∀ c ∈ ["%%tana%%\n\naaaaaaaaa".toList, "%%tana%%\n\nbbbbbbbbb".toList],
      (strip_chunk c).length ≤ 20 ∧ c.length ≤ 20) := by
  exact ⟨by decide, by decide, by decide⟩

/-- Claim C1, amended: every final file produced by the merger has size at
most the budget PLUS the length of the header marker block (10 characters:
the bin bound counts only chunk bodies and separators, the header is
prepended afterwards), unless the file wraps exactly one chunk whose
stripped content alone exceeds the budget; and no chunk's content is ever
truncated or dropped — each stripped chunk appears contiguously in some
final file. -/
theorem claim_C1_amended (chunks : List Str) (max_chars : Nat) :
    (∀ f ∈ best_fit_decreasing chunks max_chars,
       f.length ≤ max_chars + overall_header.length ∨
       ∃ c ∈ chunks, f = overall_header ++ strip_chunk c ∧
         max_chars < (strip_chunk c).length) ∧
    (∀ c ∈ chunks, ∃ f ∈ best_fit_decreasing chunks max_chars,
       ∃ p q, f = p ++ strip_chunk c ++ q) := by
  have hinfo : ∀ i ∈ bfd_infos chunks, i ∈ bfd_infos chunks ∧ i.1.length = i.2 := by
    intro i hi
    refine ⟨hi, ?_⟩
    obtain ⟨c, _, rfl⟩ := List.mem_map.mp ((mem_bfd_infos chunks i).mp hi)
    rfl
  constructor
  · intro f hf
    obtain ⟨b, hb, rfl⟩ := List.mem_map.mp hf
    have hinv := bfd_fold_inv max_chars (bfd_infos chunks) (bfd_infos chunks) []
      hinfo (by simp) b hb
    by_cases hble : b.2 ≤ max_chars
    · left
      rw [List.length_append, hinv.1]
      omega
    · right
      rcases hinv.2 with hle | hmem
      · exact absurd hle hble
      · obtain ⟨c, hc, hceq⟩ := List.mem_map.mp ((mem_bfd_infos chunks b).mp hmem)
        subst hceq
        refine ⟨c, hc, rfl, ?_⟩
        omega
  · intro c hc
    have hmem : (strip_chunk c, (strip_chunk c).length) ∈ bfd_infos chunks :=
      (mem_bfd_infos chunks _).mpr (List.mem_map_of_mem _ hc)
    obtain ⟨b, hb, p, q, he⟩ :=
      bfd_fold_contains max_chars (bfd_infos chunks) [] _ hmem
    refine ⟨overall_header ++ b.1, List.mem_map_of_mem _ hb,
      overall_header ++ p, q, ?_⟩
    rw [he]
    simp

/-- Claim C1, witness: the amended bound and the no-loss property applied to
the counterexample's two chunks. -/
theorem claim_C1_witness :
    (∀ f ∈ best_fit_decreasing
        ["%%tana%%\n\naaaaaaaaa".toList, "%%tana%%\n\nbbbbbbbbb".toList] 20,
       f.length ≤ 20 + overall_header.length ∨
       ∃ c ∈ ["%%tana%%\n\naaaaaaaaa".toList, "%%tana%%\n\nbbbbbbbbb".toList],
         f = overall_header ++ strip_chunk c ∧ 20 < (strip_chunk c).length) ∧
    (∀ c ∈ ["%%tana%%\n\naaaaaaaaa".toList, "%%tana%%\n\nbbbbbbbbb".toList],
       ∃ f ∈ best_fit_decreasing
           ["%%tana%%\n\naaaaaaaaa".toList, "%%tana%%\n\nbbbbbbbbb".toList] 20,
         ∃ p q, f = p ++ strip_chunk c ++ q) :=
  claim_C1_amended ["%%tana%%\n\naaaaaaaaa".toList, "%%tana%%\n\nbbbbbbbbb".toList] 20

/-- Claim C9, counterexample: the claim also says a reportable warning for an
oversized chunk is collected and returned alongside the result.  The merger's
complete return value on a concrete oversized chunk is exactly the list of
final files — one oversized file and nothing else; no warning value of any
kind accompanies it (the source returns only `final_files`, and nothing in
the program records a warning). -/
theorem claim_C9_counterexample :
    best_fit_decreasing ["%%tana%%\n\nabcdefghijkl".toList] 5 =
      ["%%tana%%\n\nabcdefghijkl".toList] ∧
    5 < (strip_chunk ("%%tana%%\n\nabcdefghijkl".toList)).length := by
  exact ⟨by decide, by decide⟩

/-- Claim C9, amended: a chunk whose stripped size alone exceeds the bin
capacity is placed as its own bin — the corresponding final file is exactly
the header followed by that chunk's stripped content, exceeding the budget —
and it is never dropped; however, no warning is collected or returned: the
merger's result is only the list of final files. -/
theorem claim_C9_amended (chunks : List Str) (max_chars : Nat) (c : Str)
    (hc : c ∈ chunks) (hbig : max_chars < (strip_chunk c).length) :
    overall_header ++ strip_chunk c ∈ best_fit_decreasing chunks max_chars := by
  have hmem : (strip_chunk c, (strip_chunk c).length) ∈ bfd_infos chunks :=
    (mem_bfd_infos chunks _).mpr (List.mem_map_of_mem _ hc)
  have hbin := bfd_fold_places_big max_chars (bfd_infos chunks) []
    (strip_chunk c, (strip_chunk c).length) hmem hbig
  exact List.mem_map_of_mem _ hbin

/-- Claim C9, witness: the oversized chunk of the counterexample is placed
as its own final file. -/
theorem claim_C9_witness :
    overall_header ++ strip_chunk ("%%tana%%\n\nabcdefghijkl".toList) ∈
      best_fit_decreasing ["%%tana%%\n\nabcdefghijkl".toList] 5 :=
  claim_C9_amended ["%%tana%%\n\nabcdefghijkl".toList] 5
    ("%%tana%%\n\nabcdefghijkl".toList) (by simp) (by decide)

/-! Lemmas about the conversation-level splitter. -/

theorem conv_pack_shape (header_text : Str) (max_chars : Nat) :
    ∀ (bs cur : List Str) (clen : Nat) (chunk : Str),
      chunk ∈ conv_pack header_text max_chars bs cur clen →
      ∃ cs, chunk = finalize_conv_chunk header_text cs := by
  intro bs
  induction bs with
  | nil =>
    intro cur clen chunk h
    by_cases hc : cur = []
    · simp [conv_pack, hc] at h
    · simp only [conv_pack, if_neg hc] at h
      exact ⟨cur, List.mem_singleton.mp h⟩
  | cons b bs ih =>
    intro cur clen chunk h
    rw [conv_pack] at h
    split at h
    · rcases List.mem_cons.mp h with rfl | h'
      · exact ⟨cur, rfl⟩
      · exact ih _ _ chunk h'
    · exact ih _ _ chunk h

/-- Claim C6: every chunk produced when splitting a conversation at Q-A
boundaries begins with the conversation's header text, verbatim, followed by
a blank line before its first block — in particular every continuation chunk
repeats the header. -/
theorem claim_C6 (conv_text : Str) (max_chars : Nat) :
    ∀ chunk ∈ split_conversation_by_qna conv_text max_chars,
      ∃ rest, chunk = conv_header_text conv_text ++ '\n' :: '\n' :: rest := by
  intro chunk hc
  obtain ⟨cs, rfl⟩ := conv_pack_shape _ _ _ _ _ _ hc
  exact ⟨joinNN cs, rfl⟩

/-- Claim C6, witness: the header-repetition shape at a concrete
conversation text. -/
theorem claim_C6_witness :
    ∃ rest, ("h  - Chat::\n\nb".toList) =
      conv_header_text ("h  - Chat::\nb".toList) ++ '\n' :: '\n' :: rest :=
  claim_C6 ("h  - Chat::\nb".toList) 100 ("h  - Chat::\n\nb".toList) (by decide)

/-! Lemmas about header markers at the start of chunks and files. -/

theorem isPrefixOf_append_self (l t : Str) : l.isPrefixOf (l ++ t) = true := by
  induction l with
  | nil => simp [List.isPrefixOf]
  | cons c l ih => simp [List.isPrefixOf, ih]

theorem strip_chunk_append (t : Str) : strip_chunk (overall_header ++ t) = t := by
  rw [strip_chunk, if_pos (isPrefixOf_append_self _ _)]
  exact List.drop_left _ _

theorem not_marker_of_head_ok (s : Str) (h : head_ok s) :
    tana_marker.isPrefixOf s = false := by
  cases s with
  | nil => rfl
  | cons c t =>
    have hm : tana_marker = '%' :: "%tana%%".toList := by decide
    have hc : ¬ ('%' = c) := by
      intro he
      refine h ?_
      rw [← he]
      rfl
    rw [hm]
    simp [List.isPrefixOf, hc]

theorem head_ok_cons_nl (x : Str) : head_ok ('\n' :: x) := by
  intro h
  simp at h

theorem head_ok_append_nl (a x : Str) (ha : head_ok a) :
    head_ok (a ++ '\n' :: x) := by
  cases a with
  | nil => exact head_ok_cons_nl x
  | cons c t =>
    intro h
    exact ha (by simpa using h)

theorem head_ok_of_conv_ok (v : Str) (h : conv_ok v) : head_ok v := by
  rcases h with rfl | h
  · intro h'; simp at h'
  · intro h'
    rw [h] at h'
    simp at h'

theorem head_ok_joinNN (cur : List Str) (h : ∀ v ∈ cur, conv_ok v) :
    head_ok (joinNN cur) := by
  cases cur with
  | nil => intro h'; simp [joinNN] at h'
  | cons v vs =>
    have hv := h v (by simp)
    cases vs with
    | nil => exact head_ok_of_conv_ok v hv
    | cons v' vs' =>
      rcases hv with rfl | hv
      · simpa [joinNN] using head_ok_cons_nl ('\n' :: joinNN (v' :: vs'))
      · intro h'
        rw [joinNN] at h'
        cases v with
        | nil => simp at hv
        | cons c t =>
          simp only [List.head?_cons, Option.some.injEq] at hv
          simp only [List.cons_append, List.head?_cons, Option.some.injEq] at h'
          exact absurd (h'.symm.trans hv) (by decide)

/-! Lemmas about `pySplitlines` and `header_split` on header-led text. -/

theorem pySplitlines_line_append (l : Str) (hnl : '\n' ∉ l) (s : Str) :
    pySplitlines (l ++ '\n' :: s) = l :: pySplitlines s := by
  induction l with
  | nil => simp [pySplitlines]
  | cons c l ih =>
    have hc : ¬ (c = '\n') := by
      intro he
      rw [he] at hnl
      exact hnl (List.mem_cons_self _ _)
    have ih' := ih (fun hm => hnl (by simp [hm]))
    rw [List.cons_append, pySplitlines, if_neg hc, ih']

theorem pySplitlines_hdr (convo : Str) :
    pySplitlines (overall_header ++ convo) =
      "%%tana%%".toList :: [] :: pySplitlines convo := by
  have h0 : overall_header = "%%tana%%".toList ++ ['\n', '\n'] := by decide
  have h1 : overall_header ++ convo = "%%tana%%".toList ++ '\n' :: '\n' :: convo := by
    rw [h0, List.append_assoc]
    rfl
  rw [h1, pySplitlines_line_append _ (by decide)]
  simp [pySplitlines]

/-! Lemmas tracing `head_ok` text through the splitter and the merger. -/

theorem head_ok_append_of_head (s u : Str) (hs : head_ok s) (hne : s ≠ []) :
    head_ok (s ++ u) := by
  cases s with
  | nil => exact absurd rfl hne
  | cons c t =>
    intro h
    exact hs (by simpa using h)

theorem header_split_hdr (L : List Str) :
    header_split ("%%tana%%".toList :: ([] : Str) :: L) =
      ("%%tana%%".toList :: ([] : Str) :: (header_split L).1,
       (header_split L).2) := by
  rw [header_split, if_neg (by decide), header_split, if_neg (by decide)]

theorem header_split_fst_head (L : List Str) :
    (header_split L).1.head? = L.head? := by
  cases L with
  | nil => rfl
  | cons l ls =>
    rw [header_split]
    split <;> rfl

theorem pySplitlines_head (c : Char) (t : Str) (h : ¬ c = '\n') :
    ∃ x, (pySplitlines (c :: t)).head? = some (c :: x) := by
  rw [pySplitlines, if_neg h]
  cases hp : pySplitlines t with
  | nil => exact ⟨[], rfl⟩
  | cons l ls => exact ⟨l, rfl⟩

theorem joinNL_head (l : Str) (ls : List Str) (h : l ≠ []) :
    (joinNL (l :: ls)).head? = l.head? := by
  cases ls with
  | nil => rfl
  | cons l' ls' =>
    rw [joinNL_cons_ne _ _ (by simp)]
    cases l with
    | nil => exact absurd rfl h
    | cons c t => rfl

theorem scq_chunk_shape (convo : Str) (max_chars : Nat) (hc : conv_ok convo) :
    ∀ chunk ∈ split_conversation_by_qna (overall_header ++ convo) max_chars,
      ∃ t, chunk = overall_header ++ t ∧ head_ok t := by
  intro chunk hch
  obtain ⟨cs, rfl⟩ := conv_pack_shape _ _ _ _ _ _ hch
  rcases hc with rfl | hhd
  · refine ⟨'\n' :: joinNN cs, ?_, head_ok_cons_nl _⟩
    rw [finalize_conv_chunk]
    have h1 : conv_header_text (overall_header ++ []) = "%%tana%%\n".toList := by
      decide
    rw [h1]
    have h2 : "%%tana%%\n".toList ++ ['\n', '\n'] = overall_header ++ ['\n'] := by
      decide
    calc "%%tana%%\n".toList ++ '\n' :: '\n' :: joinNN cs
        = ("%%tana%%\n".toList ++ ['\n', '\n']) ++ joinNN cs := by simp
      _ = (overall_header ++ ['\n']) ++ joinNN cs := by rw [h2]
      _ = overall_header ++ '\n' :: joinNN cs := by simp
  · obtain ⟨t, rfl⟩ : ∃ t, convo = '-' :: t := by
      cases convo with
      | nil => cases hhd
      | cons c t =>
        simp only [List.head?_cons, Option.some.injEq] at hhd
        exact ⟨t, by rw [hhd]⟩
    obtain ⟨x, hx⟩ := pySplitlines_head '-' t (by decide)
    have hhead : (header_split (pySplitlines ('-' :: t))).1.head? =
        some ('-' :: x) := by
      rw [header_split_fst_head, hx]
    obtain ⟨h'', hfst⟩ : ∃ h'',
        (header_split (pySplitlines ('-' :: t))).1 = ('-' :: x) :: h'' := by
      cases hf : (header_split (pySplitlines ('-' :: t))).1 with
      | nil => rw [hf] at hhead; cases hhead
      | cons a b =>
        rw [hf] at hhead
        simp only [List.head?_cons, Option.some.injEq] at hhead
        exact ⟨b, by rw [hhead]⟩
    have hht : conv_header_text (overall_header ++ '-' :: t) =
        overall_header ++ joinNL (('-' :: x) :: h'') := by
      rw [conv_header_text, pySplitlines_hdr, header_split_hdr, hfst]
      rw [joinNL_cons_ne _ _ (by simp), joinNL_cons_ne _ _ (by simp)]
      have h0 : overall_header = "%%tana%%".toList ++ ['\n', '\n'] := by decide
      rw [h0, List.append_assoc]
      rfl
    refine ⟨joinNL (('-' :: x) :: h'') ++ '\n' :: '\n' :: joinNN cs, ?_, ?_⟩
    · rw [finalize_conv_chunk, hht, List.append_assoc]
    · refine head_ok_append_of_head _ _ ?_ ?_
      · intro hcon
        rw [joinNL_head _ _ (by simp)] at hcon
        simp at hcon
      · intro hcon
        have := joinNL_head ('-' :: x) h'' (by simp)
        rw [hcon] at this
        simp at this

theorem split_convs_head (body : Str) (hb : conv_ok body) (p : Str)
    (hp : (split_convs body).head? = some p) : conv_ok p := by
  rcases hb with rfl | hh
  · left
    have h0 : split_convs ([] : Str) = [[]] := rfl
    rw [h0] at hp
    simpa using hp.symm
  · obtain ⟨t, rfl⟩ : ∃ t, body = '-' :: t := by
      cases body with
      | nil => cases hh
      | cons c t =>
        simp only [List.head?_cons, Option.some.injEq] at hh
        exact ⟨t, by rw [hh]⟩
    have hnp : conv_sep.isPrefixOf ('-' :: t) = false := by
      have h0 : conv_sep = '\n' :: "\n- ".toList := by decide
      rw [h0]
      simp [List.isPrefixOf]
    have h1 : split_convs ('-' :: t) = split_convs_aux (t.length + 1) ('-' :: t) := by
      rw [split_convs]
      rfl
    rw [h1, split_convs_aux, if_neg (by rw [hnp]; exact Bool.false_ne_true)] at hp
    right
    cases haux : split_convs_aux t.length t with
    | nil => rw [haux] at hp; simp at hp; rw [← hp]; rfl
    | cons q qs => rw [haux] at hp; simp at hp; rw [← hp]; rfl

theorem top_convos_all (body : Str) (hb : conv_ok body) :
    ∀ v ∈ top_convos body, conv_ok v := by
  intro v hv
  rw [top_convos] at hv
  split at hv
  · simp at hv
  · rename_i c cs hsc
    rcases List.mem_cons.mp hv with rfl | hv'
    · exact split_convs_head body hb v (by rw [hsc]; rfl)
    · obtain ⟨p, _, rfl⟩ := List.mem_map.mp hv'
      exact Or.inr rfl

theorem conv_loop_chunks (max_chars : Nat) :
    ∀ (convos cur : List Str) (clen : Nat),
      (∀ v ∈ convos, conv_ok v) → (∀ v ∈ cur, conv_ok v) →
      ∀ chunk ∈ conv_loop max_chars convos cur clen,
        ∃ t, chunk = overall_header ++ t ∧ head_ok t := by
  intro convos
  induction convos with
  | nil =>
    intro cur clen _ hcur chunk h
    rw [conv_loop] at h
    split at h
    · simp at h
    · obtain rfl := List.mem_singleton.mp h
      exact ⟨joinNN cur, rfl, head_ok_joinNN cur hcur⟩
  | cons convo rest ih =>
    intro cur clen hconv hcur chunk h
    have hconvo : conv_ok convo := hconv convo (by simp)
    have hrest : ∀ v ∈ rest, conv_ok v := fun v hv => hconv v (by simp [hv])
    rw [conv_loop] at h
    split at h
    · rcases List.mem_append.mp h with h1 | h2
      · rcases List.mem_append.mp h1 with h1a | h1b
        · by_cases hc : cur = []
          · rw [if_pos hc] at h1a; simp at h1a
          · rw [if_neg hc] at h1a
            obtain rfl := List.mem_singleton.mp h1a
            exact ⟨joinNN cur, rfl, head_ok_joinNN cur hcur⟩
        · exact scq_chunk_shape convo max_chars hconvo chunk h1b
      · exact ih [] _ hrest (by simp) chunk h2
    · split at h
      · split at h
        · rcases List.mem_cons.mp h with rfl | h'
          · exact ⟨joinNN cur, rfl, head_ok_joinNN cur hcur⟩
          · refine ih [convo] _ hrest ?_ chunk h'
            intro v hv
            rw [List.mem_singleton.mp hv]
            exact hconvo
        · refine ih (cur ++ [convo]) _ hrest ?_ chunk h
          intro v hv
          rcases List.mem_append.mp hv with h1 | h2
          · exact hcur v h1
          · rw [List.mem_singleton.mp h2]
            exact hconvo
      · split at h
        · rcases List.mem_cons.mp h with rfl | h'
          · exact ⟨joinNN cur, rfl, head_ok_joinNN cur hcur⟩
          · refine ih [convo] _ hrest ?_ chunk h'
            intro v hv
            rw [List.mem_singleton.mp hv]
            exact hconvo
        · refine ih (cur ++ [convo]) _ hrest ?_ chunk h
          intro v hv
          rcases List.mem_append.mp hv with h1 | h2
          · exact hcur v h1
          · rw [List.mem_singleton.mp h2]
            exact hconvo

theorem place_chunk_head_ok (max_chars : Nat) (bins : List (Str × Nat))
    (info : Str × Nat) (hinfo : head_ok info.1)
    (hbins : ∀ b ∈ bins, head_ok b.1) :
    ∀ b ∈ place_chunk max_chars bins info, head_ok b.1 := by
  cases hf : find_best_idx max_chars info.2 bins with
  | none =>
    have hpl : place_chunk max_chars bins info = bins ++ [info] := by
      rw [place_chunk, hf]
    rw [hpl]
    intro b hb
    rcases List.mem_append.mp hb with hb' | hb'
    · exact hbins b hb'
    · rw [List.mem_singleton.mp hb']
      exact hinfo
  | some j =>
    obtain ⟨pre, b0, post, he, hj, hg⟩ := find_best_idx_some max_chars info.2 bins j hf
    subst he hj
    have hpl : place_chunk max_chars (pre ++ b0 :: post) info =
        pre ++ (b0.1 ++ '\n' :: '\n' :: info.1, b0.2 + info.2 + 2) :: post := by
      rw [place_chunk, hf]
      exact merge_into_append info pre b0 post
    rw [hpl]
    intro b hb
    rcases List.mem_append.mp hb with hb' | hb'
    · exact hbins b (List.mem_append.mpr (Or.inl hb'))
    · rcases List.mem_cons.mp hb' with rfl | hb''
      · exact head_ok_append_nl _ _
          (hbins b0 (List.mem_append.mpr (Or.inr (List.mem_cons_self _ _))))
      · exact hbins b (List.mem_append.mpr (Or.inr (List.mem_cons.mpr (Or.inr hb''))))

theorem bfd_fold_head_ok (max_chars : Nat) :
    ∀ (l bins : List (Str × Nat)),
      (∀ i ∈ l, head_ok i.1) → (∀ b ∈ bins, head_ok b.1) →
      ∀ b ∈ l.foldl (place_chunk max_chars) bins, head_ok b.1 := by
  intro l
  induction l with
  | nil => intro bins _ hbins; simpa using hbins
  | cons i l ih =>
    intro bins hl hbins
    rw [List.foldl_cons]
    exact ih _ (fun x hx => hl x (by simp [hx]))
      (place_chunk_head_ok max_chars bins i (hl i (by simp)) hbins)

theorem bfd_head_ok (chunks : List Str) (max_chars : Nat)
    (h : ∀ c ∈ chunks, head_ok (strip_chunk c)) :
    ∀ f ∈ best_fit_decreasing chunks max_chars,
      overall_header.isPrefixOf f = true ∧
      tana_marker.isPrefixOf (f.drop tana_marker.length) = false ∧
      tana_marker.isPrefixOf (f.drop overall_header.length) = false := by
  intro f hf
  obtain ⟨b, hb, rfl⟩ := List.mem_map.mp hf
  have hok : head_ok b.1 := by
    refine bfd_fold_head_ok max_chars (bfd_infos chunks) [] ?_ (by simp) b hb
    intro i hi
    obtain ⟨c, hc, rfl⟩ := List.mem_map.mp ((mem_bfd_infos chunks i).mp hi)
    exact h c hc
  refine ⟨isPrefixOf_append_self _ _, ?_, ?_⟩
  · have h0 : overall_header = tana_marker ++ ['\n', '\n'] := by decide
    have h1 : overall_header ++ b.1 = tana_marker ++ '\n' :: '\n' :: b.1 := by
      rw [h0, List.append_assoc]
      rfl
    rw [h1, List.drop_left]
    exact not_marker_of_head_ok _ (head_ok_cons_nl _)
  · rw [List.drop_left]
    exact not_marker_of_head_ok _ hok

/-- Claim C5: for every serialized text of the form the converter produces —
the overall header followed by a body that is empty or starts with a bullet
(`'-'`) — every final file delivered by the split-then-merge pipeline starts
with the header block `"%%tana%%\n\n"`, and the marker `"%%tana%%"` does not
occur again immediately after (neither right after the marker nor after the
whole header block): the marker appears at the start of each file exactly
once (chunk-level markers are stripped by the merger before it prepends the
single header). -/
theorem claim_C5 (body : Str) (max_chars : Nat)
    (hb : body = [] ∨ body.head? = some '-') :
    ∀ f ∈ best_fit_decreasing
        (split_tana_by_conversations (overall_header ++ body) max_chars)
        max_chars,
      overall_header.isPrefixOf f = true ∧
      tana_marker.isPrefixOf (f.drop tana_marker.length) = false ∧
      tana_marker.isPrefixOf (f.drop overall_header.length) = false := by
  apply bfd_head_ok
  intro c hc
  have h1 : split_tana_by_conversations (overall_header ++ body) max_chars =
      conv_loop max_chars (top_convos body) [] overall_header.length := by
    rw [split_tana_by_conversations, if_pos (isPrefixOf_append_self _ _),
      List.drop_left]
  rw [h1] at hc
  obtain ⟨t, rfl, hok⟩ := conv_loop_chunks max_chars (top_convos body) []
    overall_header.length (top_convos_all body hb) (by simp) c hc
  rw [strip_chunk_append]
  exact hok

/-- Claim C5, witness: the exactly-one-marker property at the concrete final
file produced for a concrete one-conversation serialized text. -/
theorem claim_C5_witness :
    ("- A #chatgpt\n  - Chat::\n    - q".toList = ([] : Str) ∨
      ("- A #chatgpt\n  - Chat::\n    - q".toList).head? = some '-') ∧
    (overall_header.isPrefixOf
        ("%%tana%%\n\n- A #chatgpt\n  - Chat::\n    - q".toList) = true ∧
     tana_marker.isPrefixOf
        (("%%tana%%\n\n- A #chatgpt\n  - Chat::\n    - q".toList).drop
          tana_marker.length) = false ∧
     tana_marker.isPrefixOf
        (("%%tana%%\n\n- A #chatgpt\n  - Chat::\n    - q".toList).drop
          overall_header.length) = false) :=
  ⟨Or.inr rfl,
    claim_C5 ("- A #chatgpt\n  - Chat::\n    - q".toList) 200 (Or.inr rfl)
      ("%%tana%%\n\n- A #chatgpt\n  - Chat::\n    - q".toList) (by decide)⟩

end ChatGPTana
